import Mathlib

/-!
Shallow embedding of the planarize add-on core (src/planarize.py): the
normal field smoother `get_smoothened_normals` (lines 22-39), the
per-vertex least-squares solver `planarize` (lines 42-58) and the outer
iteration driver `Planarize.execute` (lines 77-90).

Modelling conventions:
* mathutils/numpy float vectors become real triples `Vec3 = Fin 3 → ℝ`.
* Host mesh objects (spec section 6) are records: a face exposes an
  identity, an ordered vertex-index list and a host-derived normal; the
  host-derived centroid (Blender MeshPolygon.center) is the average of
  the current vertex positions, computed by `faceCenter`.
* Python dicts keyed by vertex index or face identity become functions
  `Nat → _` built with `Function.update`, with the empty-default of
  `defaultdict` for absent keys.
* `numpy.linalg.lstsq(A, b)` on the per-vertex system (three anchor rows
  `alpha * I`, then one row per plane constraint) is embedded through its
  normal equations: the minimizer of the residual is the solution of
  `(A^T A) x = A^T b`, i.e. `gramMat a ps *ᵥ x = rhsVec a p0 ps`.  This is
  exact whenever the system has full column rank, which is proved below
  for every anchor weight `a ≠ 0`; all claims about the solver are settled
  in that regime.
* `random.shuffle` (line 33) is external nondeterminism: the smoother is
  parametrised by the list of per-round visiting orders, constrained to be
  permutations of the candidate face list where a claim needs it.
-/

open Matrix

noncomputable section

/-- 3D vector values (mathutils.Vector / numpy length-3 arrays). -/
abbrev Vec3 : Type := Fin 3 → ℝ

/-- A polygon face as exposed by the host mesh API (spec section 6): a stable
identity, the ordered list of vertex indices, and the host-derived unit
normal (MeshPolygon.normal).  The centroid is not stored: the host derives
it from the current vertex positions (see `faceCenter`). -/
structure Face where
  id : Nat
  vertices : List Nat
  normal : Vec3

/-- The per-face normal dictionary `{face: face.normal for face in faces}`
(planarize.py lines 30 and 83), keyed by face identity; identities absent
from the list map to `0`. -/
def initNormals (faces : List Face) : Nat → Vec3 :=
  faces.foldl (fun m f => Function.update m f.id f.normal) (fun _ => 0)

/-- Host-derived face centroid `face.center`: the average of the positions of
the face vertices (Blender MeshPolygon.center), read from the current
position state. -/
def faceCenter (pos : Nat → Vec3) (f : Face) : Vec3 :=
  ((f.vertices.length : ℝ))⁻¹ • (f.vertices.map pos).sum

/-- Lines 43-49 of planarize.py: the `planes` defaultdict.  Every face with
exactly 3 vertices is skipped; any other face contributes the pair
`(normals[face], normals[face] · face.center)` once per occurrence of a
vertex index in its vertex list. -/
def collectPlanes (faces : List Face) (normals : Nat → Vec3) (pos : Nat → Vec3) :
    Nat → List (Vec3 × ℝ) :=
  faces.foldl
    (fun m f =>
      if f.vertices.length = 3 then m
      else
        f.vertices.foldl
          (fun m2 v =>
            Function.update m2 v
              (m2 v ++ [(normals f.id, dotProduct (normals f.id) (faceCenter pos f))]))
          m)
    (fun _ => [])

/-- Line 51 of planarize.py:
`alpha = rigidity if len(planes[vertex.index]) >= 3 else max(rigidity, 1e-3)`.
The float literal `1e-3` is embedded as the rational `1/1000`. -/
def anchorWeight (r : ℝ) (count : Nat) : ℝ :=
  if 3 ≤ count then r else max r (1/1000)

/-- Normal matrix `A^T A` of the per-vertex system of lines 52-56: three
anchor rows `alpha * I` followed by one row per plane normal, so
`A^T A = alpha^2 * I + sum of n * n^T`. -/
def gramMat (a : ℝ) (ps : List (Vec3 × ℝ)) : Matrix (Fin 3) (Fin 3) ℝ :=
  a ^ 2 • (1 : Matrix (Fin 3) (Fin 3) ℝ) + (ps.map (fun p => vecMulVec p.1 p.1)).sum

/-- Right-hand side `A^T b` of the per-vertex system of lines 52-56: the
stacked vector is `alpha * orig_coords[vertex]` followed by the plane
offsets, so `A^T b = alpha^2 * p0 + sum of c * n`. -/
def rhsVec (a : ℝ) (p0 : Vec3) (ps : List (Vec3 × ℝ)) : Vec3 :=
  a ^ 2 • p0 + (ps.map (fun p => p.2 • p.1)).sum

/-- Line 57, `numpy.linalg.lstsq(A, b)`: the least-squares position of one
vertex, through the normal equations (exact for full column rank, which
holds for every anchor weight `a ≠ 0`, see `gramMat_det_ne_zero`). -/
def solveVertex (a : ℝ) (p0 : Vec3) (ps : List (Vec3 × ℝ)) : Vec3 :=
  (gramMat a ps)⁻¹ *ᵥ rhsVec a p0 ps

/-- Lines 42-58 of planarize.py, the function `planarize`: one solver pass.
The plane constraints are collected from the positions at pass start (the
`planes` dict is fully built before the vertex loop); then every vertex in
`vertices` is assigned its least-squares position in turn.  `orig` is the
`orig_coords` dictionary argument. -/
def planarize (faces : List Face) (normals : Nat → Vec3) (r : ℝ) (orig : Nat → Vec3)
    (vertices : List Nat) (pos : Nat → Vec3) : Nat → Vec3 :=
  vertices.foldl
    (fun p v =>
      Function.update p v
        (solveVertex (anchorWeight r (collectPlanes faces normals pos v).length) (orig v)
          (collectPlanes faces normals pos v)))
    pos

/-- `Planarize.execute` (lines 77-90) with `do_smoothen = False`, as the code
actually behaves in Blender.  Line 82, `orig_coords = {vertex: vertex.co for
vertex in mesh.vertices}`, stores for each vertex the live mathutils.Vector
returned by `vertex.co`, which wraps the mesh-owned coordinate storage (no
`.copy()` is taken).  Consequently, when iteration `k` assigns
`vertex.co = coords` (line 58), the value later read back through
`orig_coords[vertex]` is the updated position: the anchor target of each
iteration is the position at the start of that iteration, which is what this
definition passes as the `orig` argument.  The rigidity is halved every
iteration (line 87). -/
def executeNoSmooth (faces : List Face) (vertices : List Nat) :
    ℝ → Nat → (Nat → Vec3) → Nat → Vec3
  | _, 0, pos => pos
  | r, n+1, pos =>
      executeNoSmooth faces vertices (r / 2) n
        (planarize faces (initNormals faces) r pos vertices pos)

/-- The driver as the specification describes it (spec sections 3 and 4.2,
`do_smoothen = False`): the anchor target of every iteration is the immutable
snapshot `orig` of the positions before the first iteration.  This is the
behaviour line 82 would have with `vertex.co.copy()`; it is kept separate so
that the actual run `executeNoSmooth` can be compared against it. -/
def executeNoSmoothSpec (faces : List Face) (vertices : List Nat) (orig : Nat → Vec3) :
    ℝ → Nat → (Nat → Vec3) → Nat → Vec3
  | _, 0, pos => pos
  | r, n+1, pos =>
      executeNoSmoothSpec faces vertices orig (r / 2) n
        (planarize faces (initNormals faces) r orig vertices pos)

/-- Lines 23-26 of planarize.py: the vertex-to-faces incidence defaultdict. -/
def incidence (faces : List Face) : Nat → List Face :=
  faces.foldl
    (fun m f => f.vertices.foldl (fun m2 v => Function.update m2 v (m2 v ++ [f])) m)
    (fun _ => [])

/-- Lines 27-29: the neighbor list of a face, `[other for vertex in
face.vertices for other in incidence[vertex] if other is not face]`.  A
neighbor sharing several vertices appears once per shared vertex (duplicates
are kept, spec section 4.1 step 2); object identity `is not` is embedded as
face-identity inequality. -/
def neighborsOf (faces : List Face) (f : Face) : List Face :=
  f.vertices.flatMap (fun v => (incidence faces v).filter (fun g => decide (g.id ≠ f.id)))

/-- mathutils `Vector.length_squared`. -/
def normSq (v : Vec3) : ℝ := dotProduct v v

/-- mathutils `Vector.normalized()`: `v` scaled to unit length, and the zero
vector when `v` has length zero (mathutils returns a zero vector there, it
does not raise). -/
def normalized (v : Vec3) : Vec3 :=
  if v = 0 then 0 else (Real.sqrt (normSq v))⁻¹ • v

/-- Line 31: `randfaces = [face for face in faces if len(neighbors[face]) >= 3]`,
the faces eligible for smoothing updates. -/
def randfaces (faces : List Face) : List Face :=
  faces.filter (fun f => decide (3 ≤ (neighborsOf faces f).length))

/-- Lines 36-38, the value summed in one smoothing update of `face`: the
current neighbor normals, sorted by squared distance to the current normal of
`face` (Python `list.sort` is stable, embedded by a stable merge sort), the
3 nearest kept and added up. -/
def updateSum (faces : List Face) (m : Nat → Vec3) (f : Face) : Vec3 :=
  ((((neighborsOf faces f).map (fun g => m g.id)).mergeSort
      (fun a b => decide (normSq (a - m f.id) ≤ normSq (b - m f.id)))).take 3).sum

/-- Line 38: one in-place smoothing update,
`normals[face] = sum(nearest[:3], Vector((0,0,0))).normalized()`. -/
def smoothUpdate (faces : List Face) (m : Nat → Vec3) (f : Face) : Nat → Vec3 :=
  Function.update m f.id (normalized (updateSum faces m f))

/-- Lines 34-38: one smoothing round, visiting the faces of `order` in turn;
each update is immediately visible to the following ones. -/
def smoothRound (faces : List Face) (m : Nat → Vec3) (order : List Face) : Nat → Vec3 :=
  order.foldl (smoothUpdate faces) m

/-- Lines 22-39, the function `get_smoothened_normals`: the normal field
after the shuffled rounds of line 32-33.  `orders` holds the visiting order
of each round; the source runs 5 rounds, each a shuffle of `randfaces`,
which claims state as hypotheses on `orders`. -/
def get_smoothened_normals (faces : List Face) (orders : List (List Face)) : Nat → Vec3 :=
  orders.foldl (smoothRound faces) (initNormals faces)

/-- Instrumented round: runs exactly like `smoothRound` in its first
component and conjoins, in its second component, the statement that each
update performed so far had a nonzero 3-nearest sum. -/
def smoothRoundAux (faces : List Face) (st : (Nat → Vec3) × Prop) (order : List Face) :
    (Nat → Vec3) × Prop :=
  order.foldl
    (fun st2 f => (smoothUpdate faces st2.1 f, st2.2 ∧ updateSum faces st2.1 f ≠ 0)) st

/-- Instrumented smoother run: first component is the normal field, second
component states that no update of the whole run had a degenerate
(zero-length) 3-nearest sum. -/
def smoothRunAux (faces : List Face) (orders : List (List Face)) : (Nat → Vec3) × Prop :=
  orders.foldl (smoothRoundAux faces) (initNormals faces, True)

end

/-- Folding `update` writes that do not depend on the accumulator read back
as an if-membership test. -/
theorem foldl_update_const {β : Type} (F : Nat → β) (l : List Nat) (p : Nat → β) (v : Nat) :
    (l.foldl (fun q w => Function.update q w (F w)) p) v = if v ∈ l then F v else p v := by
  induction l generalizing p with
  | nil => simp
  | cons w l ih =>
      rw [List.foldl_cons, ih]
      by_cases hvl : v ∈ l
      · simp [hvl]
      · rcases eq_or_ne v w with h | h
        · subst h; simp [hvl]
        · simp [hvl, h, Function.update_noteq h]

/-- Folding an append of a fixed element along a key list appends one copy of
the element per occurrence of the key. -/
theorem foldl_append_at {β : Type} (x : β) (l : List Nat) (m : Nat → List β) (v : Nat) :
    (l.foldl (fun m2 w => Function.update m2 w (m2 w ++ [x])) m) v
      = m v ++ List.replicate (l.count v) x := by
  induction l generalizing m with
  | nil => simp
  | cons w l ih =>
      rw [List.foldl_cons, ih]
      rcases eq_or_ne v w with h | h
      · subst h
        rw [Function.update_same, List.count_cons_self, List.replicate_succ,
          List.append_assoc, List.singleton_append]
      · rw [Function.update_noteq h, List.count_cons_of_ne h]

/-- Rank-one matrix times vector: `(u w^T) x = (w . x) u`. -/
theorem vecMulVec_mulVec_eq (u w x : Vec3) :
    vecMulVec u w *ᵥ x = dotProduct w x • u := by
  funext i
  simp only [Matrix.mulVec, Matrix.vecMulVec_apply, dotProduct, Pi.smul_apply, smul_eq_mul,
    Finset.sum_mul]
  exact Finset.sum_congr rfl fun j _ => by ring

/-- A list sum of matrices applied to a vector is the sum of the values. -/
theorem list_sum_mulVec (l : List (Matrix (Fin 3) (Fin 3) ℝ)) (x : Vec3) :
    l.sum *ᵥ x = (l.map (fun M => M *ᵥ x)).sum := by
  induction l with
  | nil => simp
  | cons M l ih => simp [Matrix.add_mulVec, ih]

/-- The normal matrix applied to a vector, written without matrices. -/
theorem gramMat_mulVec (a : ℝ) (ps : List (Vec3 × ℝ)) (x : Vec3) :
    gramMat a ps *ᵥ x = a ^ 2 • x + (ps.map (fun p => dotProduct p.1 x • p.1)).sum := by
  unfold gramMat
  rw [Matrix.add_mulVec, Matrix.smul_mulVec_assoc, Matrix.one_mulVec, list_sum_mulVec,
    List.map_map]
  exact congrArg _ (congrArg List.sum (List.map_congr_left fun p _ => vecMulVec_mulVec_eq p.1 p.1 x))

/-- Dot product distributes over a list sum. -/
theorem dotProduct_list_sum (x : Vec3) (l : List Vec3) :
    dotProduct x l.sum = (l.map (fun v => dotProduct x v)).sum := by
  induction l with
  | nil => simp
  | cons v l ih => simp [Matrix.dotProduct_add, ih]

/-- Quadratic form of the normal matrix: anchor part plus squared residuals. -/
theorem gramMat_quadform (a : ℝ) (ps : List (Vec3 × ℝ)) (x : Vec3) :
    dotProduct x (gramMat a ps *ᵥ x)
      = a ^ 2 * dotProduct x x + (ps.map (fun p => dotProduct p.1 x ^ 2)).sum := by
  rw [gramMat_mulVec, Matrix.dotProduct_add, Matrix.dotProduct_smul, dotProduct_list_sum,
    List.map_map]
  refine congrArg₂ _ rfl (congrArg List.sum (List.map_congr_left fun p _ => ?_))
  rw [Function.comp_apply, Matrix.dotProduct_smul, smul_eq_mul, Matrix.dotProduct_comm]
  ring

/-- The dot product of a real vector with itself is nonnegative. -/
theorem dotProduct_self_nonneg (x : Vec3) : 0 ≤ dotProduct x x :=
  Finset.sum_nonneg fun i _ => mul_self_nonneg (x i)

/-- For every nonzero anchor weight the per-vertex normal matrix is
nonsingular: the system of lines 52-56 has full column rank 3. -/
theorem gramMat_det_ne_zero {a : ℝ} (ha : a ≠ 0) (ps : List (Vec3 × ℝ)) :
    (gramMat a ps).det ≠ 0 := by
  intro hdet
  obtain ⟨x, hx0, hxv⟩ := Matrix.exists_mulVec_eq_zero_iff.mpr hdet
  have hq := gramMat_quadform a ps x
  rw [hxv, Matrix.dotProduct_zero] at hq
  have h1 : 0 ≤ (ps.map (fun p => dotProduct p.1 x ^ 2)).sum := by
    refine List.sum_nonneg ?_
    intro y hy
    obtain ⟨p, _, rfl⟩ := List.mem_map.mp hy
    exact sq_nonneg _
  have hxx : 0 < dotProduct x x := by
    rcases lt_or_eq_of_le (dotProduct_self_nonneg x) with h | h
    · exact h
    · exact absurd (Matrix.dotProduct_self_eq_zero.mp h.symm) hx0
  have h2 : 0 < a ^ 2 * dotProduct x x := mul_pos (by positivity) hxx
  linarith

/-- If a vector satisfies the normal equations for a nonzero anchor weight,
it is the least-squares solution computed by line 57. -/
theorem solveVertex_eq {a : ℝ} (ha : a ≠ 0) {p0 x : Vec3} {ps : List (Vec3 × ℝ)}
    (hx : gramMat a ps *ᵥ x = rhsVec a p0 ps) :
    solveVertex a p0 ps = x := by
  have hdet : IsUnit (gramMat a ps).det := isUnit_iff_ne_zero.mpr (gramMat_det_ne_zero ha ps)
  unfold solveVertex
  rw [← hx, Matrix.mulVec_mulVec, Matrix.nonsing_inv_mul _ hdet, Matrix.one_mulVec]

/-- For a nonzero anchor weight the computed position satisfies the normal
equations. -/
theorem solveVertex_spec {a : ℝ} (ha : a ≠ 0) (p0 : Vec3) (ps : List (Vec3 × ℝ)) :
    gramMat a ps *ᵥ solveVertex a p0 ps = rhsVec a p0 ps := by
  have hdet : IsUnit (gramMat a ps).det := isUnit_iff_ne_zero.mpr (gramMat_det_ne_zero ha ps)
  unfold solveVertex
  rw [Matrix.mulVec_mulVec, Matrix.mul_nonsing_inv _ hdet, Matrix.one_mulVec]

/-- A positive rigidity yields a positive anchor weight for any count. -/
theorem anchorWeight_pos {r : ℝ} (hr : 0 < r) (c : Nat) : 0 < anchorWeight r c := by
  unfold anchorWeight
  split
  · exact hr
  · exact lt_of_lt_of_le hr (le_max_left _ _)

/-- The floor branch: with fewer than 3 constraints the anchor weight is at
least the floor `1/1000`, whatever the rigidity. -/
theorem anchorWeight_pos_of_lt {c : Nat} (hc : c < 3) (r : ℝ) : 0 < anchorWeight r c := by
  unfold anchorWeight
  rw [if_neg (by omega)]
  exact lt_of_lt_of_le (by norm_num) (le_max_right _ _)

/-- The planes fold of lines 43-49 over any accumulator: a vertex index reads
back its accumulator entry followed by one pair per incident non-triangular
face, in face order, provided face vertex lists have no duplicates. -/
theorem collectPlanes_fold (normals pos : Nat → Vec3) (faces : List Face)
    (m : Nat → List (Vec3 × ℝ)) (v : Nat) (hnd : ∀ f ∈ faces, f.vertices.Nodup) :
    (faces.foldl
      (fun m f =>
        if f.vertices.length = 3 then m
        else
          f.vertices.foldl
            (fun m2 w =>
              Function.update m2 w
                (m2 w ++ [(normals f.id, dotProduct (normals f.id) (faceCenter pos f))]))
            m)
      m) v
      = m v
        ++ (faces.filter
              (fun f => decide (f.vertices.length ≠ 3) && decide (v ∈ f.vertices))).map
            (fun f => (normals f.id, dotProduct (normals f.id) (faceCenter pos f))) := by
  induction faces generalizing m with
  | nil => simp
  | cons f fs ih =>
      have hf : f.vertices.Nodup := hnd f (by simp)
      have hfs : ∀ g ∈ fs, g.vertices.Nodup := fun g hg => hnd g (by simp [hg])
      rw [List.foldl_cons, List.filter_cons]
      by_cases h3 : f.vertices.length = 3
      · rw [ih _ hfs]
        simp [h3]
      · rw [ih _ hfs, if_neg h3, foldl_append_at]
        by_cases hv : v ∈ f.vertices
        · rw [List.count_eq_one_of_mem hf hv]
          simp [h3, hv, List.append_assoc]
        · rw [List.count_eq_zero_of_not_mem hv]
          simp [h3, hv]

/-- Characterization of the `planes` dict of lines 43-49: the constraint list
of a vertex is exactly one `(normal, normal . centroid)` pair for each
non-triangular face whose vertex list contains it, in face order. -/
theorem collectPlanes_eq (faces : List Face) (normals pos : Nat → Vec3) (v : Nat)
    (hnd : ∀ f ∈ faces, f.vertices.Nodup) :
    collectPlanes faces normals pos v
      = (faces.filter
            (fun f => decide (f.vertices.length ≠ 3) && decide (v ∈ f.vertices))).map
          (fun f => (normals f.id, dotProduct (normals f.id) (faceCenter pos f))) := by
  unfold collectPlanes
  rw [collectPlanes_fold normals pos faces _ v hnd]
  simp

/-- A vertex all of whose incident faces are triangles collects no plane
constraint (no duplicate-freeness needed). -/
theorem collectPlanes_eq_nil (faces : List Face) (normals pos : Nat → Vec3) (v : Nat)
    (h : ∀ f ∈ faces, v ∈ f.vertices → f.vertices.length = 3) :
    collectPlanes faces normals pos v = [] := by
  unfold collectPlanes
  have key :
      ∀ (fcs : List Face), (∀ f ∈ fcs, v ∈ f.vertices → f.vertices.length = 3) →
        ∀ m : Nat → List (Vec3 × ℝ),
        (fcs.foldl
          (fun m f =>
            if f.vertices.length = 3 then m
            else
              f.vertices.foldl
                (fun m2 w =>
                  Function.update m2 w
                    (m2 w ++ [(normals f.id, dotProduct (normals f.id) (faceCenter pos f))]))
                m)
          m) v = m v := by
    intro fcs
    induction fcs with
    | nil => intro _ m; simp
    | cons f fs ih =>
        intro hh m
        have hfs : ∀ g ∈ fs, v ∈ g.vertices → g.vertices.length = 3 :=
          fun g hg => hh g (by simp [hg])
        rw [List.foldl_cons]
        by_cases h3 : f.vertices.length = 3
        · rw [if_pos h3, ih hfs]
        · have hv : v ∉ f.vertices := fun hmem => h3 (hh f (by simp) hmem)
          rw [if_neg h3, ih hfs, foldl_append_at, List.count_eq_zero_of_not_mem hv]
          simp
  exact key faces h _

/-- Line 58 through the pass fold: every vertex listed in `vertices` is
assigned the least-squares solution of its own system; the written value
depends only on the frozen constraints and the anchor dictionary, not on the
positions written earlier in the same pass. -/
theorem planarize_apply (faces : List Face) (normals : Nat → Vec3) (r : ℝ)
    (orig : Nat → Vec3) (vertices : List Nat) (pos : Nat → Vec3) {v : Nat}
    (hv : v ∈ vertices) :
    planarize faces normals r orig vertices pos v
      = solveVertex (anchorWeight r (collectPlanes faces normals pos v).length) (orig v)
          (collectPlanes faces normals pos v) := by
  unfold planarize
  rw [foldl_update_const
    (fun w =>
      solveVertex (anchorWeight r (collectPlanes faces normals pos w).length) (orig w)
        (collectPlanes faces normals pos w))]
  rw [if_pos hv]

/-- Concrete witness data: a triangle and a quad sharing vertices 0 and 2. -/
def wTri : Face := ⟨0, [0, 1, 2], ![1, 0, 0]⟩

/-- Concrete witness data: a quad face with identity 1. -/
def wQuad : Face := ⟨1, [0, 2, 3, 4], ![0, 0, 1]⟩

/-- Concrete witness data: a position state placing every vertex at the
origin. -/
def wPos : Nat → Vec3 := fun _ => ![0, 0, 0]

/-- Concrete data for the single-quad scenario: the unit square in the
plane z = 0, as its own face. -/
def sqFace : Face := ⟨0, [0, 1, 2, 3], ![0, 0, 1]⟩

/-- Positions of the unit square vertices (z = 0). -/
def sqPos : Nat → Vec3 := fun v =>
  if v = 1 then ![1, 0, 0]
  else if v = 2 then ![1, 1, 0]
  else if v = 3 then ![0, 1, 0]
  else ![0, 0, 0]

/-- Constraint lists collected on the single-quad mesh. -/
noncomputable abbrev sqPlanes (v : Nat) : List (Vec3 × ℝ) :=
  collectPlanes [sqFace] (initNormals [sqFace]) sqPos v

/-- C4: for every mesh whose faces carry duplicate-free vertex lists and
every vertex, the collected constraint list contains no pair contributed by
a triangular face, and every non-triangular face incident to the vertex
contributes exactly one `(normal, normal . centroid)` pair: the list is
exactly the image of the incident non-triangular faces. -/
theorem C4_no_triangle_constraints (faces : List Face) (normals pos : Nat → Vec3) (v : Nat)
    (hnd : ∀ f ∈ faces, f.vertices.Nodup) :
    collectPlanes faces normals pos v
      = (faces.filter
            (fun f => decide (f.vertices.length ≠ 3) && decide (v ∈ f.vertices))).map
          (fun f => (normals f.id, dotProduct (normals f.id) (faceCenter pos f))) :=
  collectPlanes_eq faces normals pos v hnd

/-- Witness for C4 at a mesh of one triangle and one quad sharing vertex 0:
only the quad contributes, exactly once. -/
theorem C4_no_triangle_constraints_witness :
    collectPlanes [wTri, wQuad] (initNormals [wTri, wQuad]) wPos 0
      = [(initNormals [wTri, wQuad] wQuad.id,
          dotProduct (initNormals [wTri, wQuad] wQuad.id) (faceCenter wPos wQuad))] := by
  rw [C4_no_triangle_constraints [wTri, wQuad] (initNormals [wTri, wQuad]) wPos 0 (by decide)]
  rfl

/-- C5: the anchor weight used for a solved vertex is exactly the rigidity
when the vertex has at least 3 plane constraints and `max rigidity (1/1000)`
otherwise (line 51; the float `1e-3` is the rational `1/1000`). -/
theorem C5_anchor_weight_formula (faces : List Face) (normals : Nat → Vec3) (r : ℝ)
    (orig : Nat → Vec3) (vertices : List Nat) (pos : Nat → Vec3) {v : Nat}
    (hv : v ∈ vertices) :
    planarize faces normals r orig vertices pos v
      = solveVertex
          (if 3 ≤ (collectPlanes faces normals pos v).length then r else max r (1/1000))
          (orig v) (collectPlanes faces normals pos v) := by
  rw [planarize_apply faces normals r orig vertices pos hv]
  rfl

/-- Witness for C5 on the single-quad mesh with rigidity 2 at vertex 0. -/
theorem C5_anchor_weight_formula_witness :
    planarize [sqFace] (initNormals [sqFace]) 2 sqPos [0, 1, 2, 3] sqPos 0
      = solveVertex (if 3 ≤ (sqPlanes 0).length then 2 else max 2 (1/1000))
          (sqPos 0) (sqPlanes 0) :=
  C5_anchor_weight_formula [sqFace] (initNormals [sqFace]) 2 sqPos [0, 1, 2, 3] sqPos
    (by decide)

/-- C6: a vertex with zero adjacent non-triangular faces and positive
rigidity is assigned exactly its anchor-dictionary position by one solve
pass (the anchor-only system has that unique solution). -/
theorem C6_anchor_only_returns_original (faces : List Face) (normals : Nat → Vec3)
    (r : ℝ) (orig : Nat → Vec3) (vertices : List Nat) (pos : Nat → Vec3) {v : Nat}
    (hv : v ∈ vertices) (hr : 0 < r)
    (htri : ∀ f ∈ faces, v ∈ f.vertices → f.vertices.length = 3) :
    planarize faces normals r orig vertices pos v = orig v := by
  rw [planarize_apply faces normals r orig vertices pos hv,
    collectPlanes_eq_nil faces normals pos v htri]
  apply solveVertex_eq (ne_of_gt (anchorWeight_pos hr 0))
  rw [gramMat_mulVec]
  unfold rhsVec
  simp

/-- Witness for C6 on a mesh of one triangle with rigidity 1 at vertex 0. -/
theorem C6_anchor_only_returns_original_witness :
    planarize [wTri] (initNormals [wTri]) 1 (fun _ => ![2, 3, 5]) [0, 1, 2] wPos 0
      = ![2, 3, 5] :=
  C6_anchor_only_returns_original [wTri] (initNormals [wTri]) 1 (fun _ => ![2, 3, 5])
    [0, 1, 2] wPos (by decide) (by norm_num) (by decide)

/-- C10: for positive rigidity the per-vertex normal matrix is nonsingular
(full column rank 3 of the stacked system), the pass assigns to every listed
vertex the position solving the normal equations, and that solution is
unique: there is no failure branch in the solve. -/
theorem C10_full_rank_unique_solution (faces : List Face) (normals : Nat → Vec3)
    (r : ℝ) (orig : Nat → Vec3) (vertices : List Nat) (pos : Nat → Vec3) {v : Nat}
    (hr : 0 < r) (hv : v ∈ vertices) :
    (gramMat (anchorWeight r (collectPlanes faces normals pos v).length)
        (collectPlanes faces normals pos v)).det ≠ 0
    ∧ gramMat (anchorWeight r (collectPlanes faces normals pos v).length)
          (collectPlanes faces normals pos v)
        *ᵥ planarize faces normals r orig vertices pos v
        = rhsVec (anchorWeight r (collectPlanes faces normals pos v).length) (orig v)
            (collectPlanes faces normals pos v)
    ∧ ∀ y : Vec3,
        gramMat (anchorWeight r (collectPlanes faces normals pos v).length)
            (collectPlanes faces normals pos v) *ᵥ y
          = rhsVec (anchorWeight r (collectPlanes faces normals pos v).length) (orig v)
              (collectPlanes faces normals pos v)
        → y = planarize faces normals r orig vertices pos v := by
  have ha : anchorWeight r (collectPlanes faces normals pos v).length ≠ 0 :=
    ne_of_gt (anchorWeight_pos hr _)
  refine ⟨gramMat_det_ne_zero ha _, ?_, ?_⟩
  · rw [planarize_apply faces normals r orig vertices pos hv]
    exact solveVertex_spec ha _ _
  · intro y hy
    rw [planarize_apply faces normals r orig vertices pos hv]
    exact (solveVertex_eq ha hy).symm

/-- Witness for C10: the single-quad mesh with rigidity 1 at vertex 0 has a
nonsingular system. -/
theorem C10_full_rank_unique_solution_witness :
    (gramMat (anchorWeight 1 (sqPlanes 0).length) (sqPlanes 0)).det ≠ 0 :=
  (C10_full_rank_unique_solution [sqFace] (initNormals [sqFace]) 1 sqPos [0, 1, 2, 3]
    sqPos (by norm_num) (by decide)).1

/-- C2 (amended): with rigidity 0 a vertex with fewer than 3 plane
constraints gets the floor anchor weight `1/1000` and its system is
nonsingular: the floor is applied, not bypassed, and no singular system
arises. -/
theorem C2_floor_prevents_singularity (faces : List Face) (normals pos : Nat → Vec3)
    (v : Nat) (hlt : (collectPlanes faces normals pos v).length < 3) :
    anchorWeight 0 (collectPlanes faces normals pos v).length = 1/1000
    ∧ (gramMat (anchorWeight 0 (collectPlanes faces normals pos v).length)
        (collectPlanes faces normals pos v)).det ≠ 0 := by
  constructor
  · unfold anchorWeight
    rw [if_neg (by omega)]
    exact max_eq_right (by norm_num)
  · exact gramMat_det_ne_zero (ne_of_gt (anchorWeight_pos_of_lt hlt 0)) _

/-- Witness for the amended C2 at vertex 0 of the single quad. -/
theorem C2_floor_prevents_singularity_witness :
    anchorWeight 0 (sqPlanes 0).length = 1/1000
    ∧ (gramMat (anchorWeight 0 (sqPlanes 0).length) (sqPlanes 0)).det ≠ 0 :=
  C2_floor_prevents_singularity [sqFace] (initNormals [sqFace]) sqPos 0 (by decide)

/-- C2 (counterexample): running the solver with rigidity 0 on the single
quad does not produce a singular system anywhere: each of the four vertices
has exactly one plane constraint, so the anchor floor applies and every
per-vertex system has nonzero determinant, refuting the claimed
SingularSystem failure. -/
theorem C2_counterexample :
    (sqPlanes 0).length = 1 ∧ (sqPlanes 1).length = 1
    ∧ (sqPlanes 2).length = 1 ∧ (sqPlanes 3).length = 1
    ∧ (gramMat (anchorWeight 0 (sqPlanes 0).length) (sqPlanes 0)).det ≠ 0
    ∧ (gramMat (anchorWeight 0 (sqPlanes 1).length) (sqPlanes 1)).det ≠ 0
    ∧ (gramMat (anchorWeight 0 (sqPlanes 2).length) (sqPlanes 2)).det ≠ 0
    ∧ (gramMat (anchorWeight 0 (sqPlanes 3).length) (sqPlanes 3)).det ≠ 0 := by
  refine ⟨by decide, by decide, by decide, by decide, ?_, ?_, ?_, ?_⟩ <;>
    exact gramMat_det_ne_zero (ne_of_gt (anchorWeight_pos_of_lt (by decide) 0)) _

/-- One iteration of the driver is a single solver pass at full rigidity. -/
theorem executeNoSmooth_one (faces : List Face) (vertices : List Nat) (r : ℝ)
    (pos : Nat → Vec3) :
    executeNoSmooth faces vertices r 1 pos
      = planarize faces (initNormals faces) r pos vertices pos := rfl

/-- A vertex absent from the processed list keeps its pass-start position. -/
theorem planarize_not_mem (faces : List Face) (normals : Nat → Vec3) (r : ℝ)
    (orig : Nat → Vec3) (vertices : List Nat) (pos : Nat → Vec3) {v : Nat}
    (hv : v ∉ vertices) :
    planarize faces normals r orig vertices pos v = pos v := by
  unfold planarize
  rw [foldl_update_const
    (fun w =>
      solveVertex (anchorWeight r (collectPlanes faces normals pos w).length) (orig w)
        (collectPlanes faces normals pos w))]
  rw [if_neg hv]

/-- The centroid of a face all of whose vertices lie on the plane `n.x = c`
lies on that plane as well (the face has at least one vertex). -/
theorem dot_faceCenter_of_coplanar (pos : Nat → Vec3) (f : Face) (n : Vec3) (c : ℝ)
    (hne : f.vertices ≠ []) (h : ∀ w ∈ f.vertices, dotProduct n (pos w) = c) :
    dotProduct n (faceCenter pos f) = c := by
  unfold faceCenter
  rw [Matrix.dotProduct_smul, dotProduct_list_sum, List.map_map]
  have hrep : f.vertices.map ((fun v => dotProduct n v) ∘ pos)
      = List.replicate f.vertices.length c := by
    refine List.eq_replicate_iff.mpr ⟨by simp, ?_⟩
    intro b hb
    obtain ⟨w, hw, rfl⟩ := List.mem_map.mp hb
    exact h w hw
  rw [hrep, List.sum_replicate, smul_eq_mul, nsmul_eq_mul]
  have hlen : (f.vertices.length : ℝ) ≠ 0 :=
    Nat.cast_ne_zero.mpr (List.length_pos.mpr hne).ne'
  field_simp

/-- Solving against a single plane constraint: the solution is the vector
satisfying the one-constraint normal equations. -/
theorem solve_single {a : ℝ} (ha : a ≠ 0) (p0 n x : Vec3) (c : ℝ)
    (hx : a ^ 2 • x + dotProduct n x • n = a ^ 2 • p0 + c • n) :
    solveVertex a p0 [(n, c)] = x := by
  apply solveVertex_eq ha
  rw [gramMat_mulVec]
  unfold rhsVec
  simpa using hx

/-- C7: running the operator for one iteration with smoothing disabled on a
mesh of a single quad whose 4 vertices lie exactly on a common plane
orthogonal to the face normal leaves every vertex position unchanged, for
any rigidity: the original position satisfies the anchor rows and the single
plane constraint exactly. -/
theorem C7_planar_quad_unchanged (f : Face) (pos : Nat → Vec3) (r : ℝ)
    (h4 : f.vertices.length = 4) (hnd : f.vertices.Nodup)
    (hplane : ∃ c : ℝ, ∀ w ∈ f.vertices, dotProduct f.normal (pos w) = c)
    {v : Nat} (hv : v ∈ f.vertices) :
    executeNoSmooth [f] f.vertices r 1 pos v = pos v := by
  obtain ⟨c, hc⟩ := hplane
  rw [executeNoSmooth_one, planarize_apply [f] (initNormals [f]) r pos f.vertices pos hv]
  have hN : initNormals [f] f.id = f.normal := by
    unfold initNormals
    simp
  have hps : collectPlanes [f] (initNormals [f]) pos v
      = [(f.normal, dotProduct f.normal (faceCenter pos f))] := by
    rw [collectPlanes_eq [f] (initNormals [f]) pos v ?_]
    · have h3 : f.vertices.length ≠ 3 := by omega
      rw [List.filter_cons]
      simp [h3, hv, hN]
    · intro g hg
      rw [List.mem_singleton] at hg
      subst hg
      exact hnd
  have hcc : dotProduct f.normal (faceCenter pos f) = c :=
    dot_faceCenter_of_coplanar pos f f.normal c
      (by intro hnil; rw [hnil] at h4; simp at h4) hc
  rw [hps, hcc]
  have hone : ([(f.normal, c)] : List (Vec3 × ℝ)).length < 3 := by simp
  exact solve_single (ne_of_gt (anchorWeight_pos_of_lt hone r)) (pos v) f.normal (pos v) c
    (by rw [hc v hv])

/-- Witness for C7: the planar unit square with rigidity 1 keeps vertex 0 at
the origin. -/
theorem C7_planar_quad_unchanged_witness :
    executeNoSmooth [sqFace] sqFace.vertices 1 1 sqPos 0 = ![0, 0, 0] := by
  have h := @C7_planar_quad_unchanged sqFace sqPos 1 (by decide) (by decide)
    ⟨0, by
      intro w hw
      have hw4 : w = 0 ∨ w = 1 ∨ w = 2 ∨ w = 3 := by
        simpa [sqFace] using hw
      rcases hw4 with rfl | rfl | rfl | rfl <;>
        norm_num [sqFace, sqPos, Matrix.dotProduct, Fin.sum_univ_three,
          Matrix.cons_val_zero, Matrix.cons_val_one, Matrix.head_cons,
          Matrix.cons_val_two, Matrix.tail_cons]⟩
    0 (by decide)
  rw [h]
  norm_num [sqPos]

/-- One iteration of the snapshot-semantics driver is a single solver pass. -/
theorem executeNoSmoothSpec_one (faces : List Face) (vertices : List Nat)
    (orig : Nat → Vec3) (r : ℝ) (pos : Nat → Vec3) :
    executeNoSmoothSpec faces vertices orig r 1 pos
      = planarize faces (initNormals faces) r orig vertices pos := rfl

/-- Below the constraint-count branch the anchor weight is the floored
maximum. -/
theorem anchorWeight_eq_max {c : Nat} (hc : c < 3) (r : ℝ) :
    anchorWeight r c = max r (1/1000) := by
  unfold anchorWeight
  rw [if_neg (by omega)]

/-- The non-planar quad used to exhibit the snapshot aliasing: a unit-square
footprint with vertex 3 lifted to z = 4, with its host-supplied face data. -/
noncomputable def aQuad : Face := ⟨0, [0, 1, 2, 3], ![0, 0, 1]⟩

/-- Initial positions of the lifted quad. -/
noncomputable def aPos : Nat → Vec3 := fun v =>
  if v = 1 then ![1, 0, 0]
  else if v = 2 then ![1, 1, 0]
  else if v = 3 then ![0, 1, 4]
  else ![0, 0, 0]

/-- Position state after the first solver pass on the lifted quad. -/
noncomputable def aPos1 : Nat → Vec3 := fun v =>
  if v = 0 then ![0, 0, 1/2]
  else if v = 1 then ![1, 0, 1/2]
  else if v = 2 then ![1, 1, 1/2]
  else if v = 3 then ![0, 1, 5/2]
  else aPos v

/-- Constraints collected on the lifted quad at any of its vertices, for an
arbitrary position state. -/
theorem collect_aQuad (p : Nat → Vec3) {v : Nat} (hv : v ∈ [0, 1, 2, 3]) :
    collectPlanes [aQuad] (initNormals [aQuad]) p v
      = [(![0, 0, 1], dotProduct ![0, 0, 1] (faceCenter p aQuad))] := by
  fin_cases hv <;> rfl

/-- The quad centroid offset at the initial positions. -/
theorem aCenter0 : dotProduct ![0, 0, 1] (faceCenter aPos aQuad) = 1 := by
  norm_num [faceCenter, aQuad, aPos, Matrix.dotProduct, Fin.sum_univ_three,
    Matrix.cons_val_zero, Matrix.cons_val_one, Matrix.head_cons, Matrix.cons_val_two,
    Matrix.tail_cons, Pi.add_apply, Pi.smul_apply]

/-- The quad centroid offset after the first pass. -/
theorem aCenter1 : dotProduct ![0, 0, 1] (faceCenter aPos1 aQuad) = 1 := by
  norm_num [faceCenter, aQuad, aPos1, aPos, Matrix.dotProduct, Fin.sum_univ_three,
    Matrix.cons_val_zero, Matrix.cons_val_one, Matrix.head_cons, Matrix.cons_val_two,
    Matrix.tail_cons, Pi.add_apply, Pi.smul_apply]

/-- The first solver pass on the lifted quad, computed in closed form. -/
theorem pass1_eq :
    planarize [aQuad] (initNormals [aQuad]) 1 aPos [0, 1, 2, 3] aPos = aPos1 := by
  funext v
  by_cases hv : v ∈ [0, 1, 2, 3]
  · rw [planarize_apply _ _ _ _ _ _ hv, collect_aQuad aPos hv, List.length_singleton,
      anchorWeight_eq_max (by omega) 1, aCenter0,
      show max (1:ℝ) (1/1000) = 1 from max_eq_left (by norm_num)]
    fin_cases hv
    · exact solve_single one_ne_zero (aPos 0) ![0, 0, 1] (aPos1 0) 1
        (by
          funext i
          fin_cases i <;>
            norm_num [aPos, aPos1, Matrix.dotProduct, Fin.sum_univ_three,
              Matrix.cons_val_zero, Matrix.cons_val_one, Matrix.head_cons,
              Matrix.cons_val_two, Matrix.tail_cons, Pi.add_apply, Pi.smul_apply])
    · exact solve_single one_ne_zero (aPos 1) ![0, 0, 1] (aPos1 1) 1
        (by
          funext i
          fin_cases i <;>
            norm_num [aPos, aPos1, Matrix.dotProduct, Fin.sum_univ_three,
              Matrix.cons_val_zero, Matrix.cons_val_one, Matrix.head_cons,
              Matrix.cons_val_two, Matrix.tail_cons, Pi.add_apply, Pi.smul_apply])
    · exact solve_single one_ne_zero (aPos 2) ![0, 0, 1] (aPos1 2) 1
        (by
          funext i
          fin_cases i <;>
            norm_num [aPos, aPos1, Matrix.dotProduct, Fin.sum_univ_three,
              Matrix.cons_val_zero, Matrix.cons_val_one, Matrix.head_cons,
              Matrix.cons_val_two, Matrix.tail_cons, Pi.add_apply, Pi.smul_apply])
    · exact solve_single one_ne_zero (aPos 3) ![0, 0, 1] (aPos1 3) 1
        (by
          funext i
          fin_cases i <;>
            norm_num [aPos, aPos1, Matrix.dotProduct, Fin.sum_univ_three,
              Matrix.cons_val_zero, Matrix.cons_val_one, Matrix.head_cons,
              Matrix.cons_val_two, Matrix.tail_cons, Pi.add_apply, Pi.smul_apply])
  · rw [planarize_not_mem _ _ _ _ _ _ hv]
    have h0 : v ≠ 0 := by rintro rfl; exact hv (by decide)
    have h1 : v ≠ 1 := by rintro rfl; exact hv (by decide)
    have h2 : v ≠ 2 := by rintro rfl; exact hv (by decide)
    have h3 : v ≠ 3 := by rintro rfl; exact hv (by decide)
    simp [aPos1, h0, h1, h2, h3]

/-- C1: refuted on the code (code bug).  On the lifted quad with rigidity 1,
iterations 2 and smoothing disabled, the position of vertex 3 after
iteration 1 is (0, 1, 5/2), different from its original position (0, 1, 4);
because `orig_coords` (line 82) stores live `vertex.co` views and not
copies, iteration 2 anchors vertex 3 to (0, 1, 5/2) and the run ends at
(0, 1, 13/10), while anchoring every iteration to the immutable snapshot,
as the specification requires, would end at (0, 1, 8/5).  The snapshot is
therefore mutated during the run and the anchor target of iteration 2 is
not the position before the first iteration. -/
theorem C1_snapshot_not_immutable :
    executeNoSmooth [aQuad] [0, 1, 2, 3] 1 1 aPos 3 = ![0, 1, 5/2]
    ∧ (![0, 1, 5/2] : Vec3) ≠ aPos 3
    ∧ executeNoSmooth [aQuad] [0, 1, 2, 3] 1 2 aPos 3 = ![0, 1, 13/10]
    ∧ executeNoSmoothSpec [aQuad] [0, 1, 2, 3] aPos 1 2 aPos 3 = ![0, 1, 8/5]
    ∧ (![0, 1, 13/10] : Vec3) ≠ ![0, 1, 8/5] := by
  have hmax : max (1/2 : ℝ) (1/1000) = 1/2 := max_eq_left (by norm_num)
  refine ⟨?_, ?_, ?_, ?_, ?_⟩
  · rw [executeNoSmooth_one, pass1_eq]
    norm_num [aPos1]
  · intro h
    have h2 := congrFun h 2
    norm_num [aPos, Matrix.cons_val_two, Matrix.tail_cons, Matrix.head_cons] at h2
  · have hrun : executeNoSmooth [aQuad] [0, 1, 2, 3] 1 2 aPos
        = planarize [aQuad] (initNormals [aQuad]) (1/2) aPos1 [0, 1, 2, 3] aPos1 := by
      show executeNoSmooth [aQuad] [0, 1, 2, 3] (1/2) 1
          (planarize [aQuad] (initNormals [aQuad]) 1 aPos [0, 1, 2, 3] aPos) = _
      rw [pass1_eq, executeNoSmooth_one]
    rw [hrun, planarize_apply _ _ _ _ _ _ (by decide : (3:Nat) ∈ [0, 1, 2, 3]),
      collect_aQuad aPos1 (by decide), List.length_singleton,
      anchorWeight_eq_max (by omega) (1/2), aCenter1, hmax]
    exact solve_single (by norm_num) (aPos1 3) ![0, 0, 1] ![0, 1, 13/10] 1
      (by
        funext i
        fin_cases i <;>
          norm_num [aPos, aPos1, Matrix.dotProduct, Fin.sum_univ_three,
            Matrix.cons_val_zero, Matrix.cons_val_one, Matrix.head_cons,
            Matrix.cons_val_two, Matrix.tail_cons, Pi.add_apply, Pi.smul_apply])
  · have hrun : executeNoSmoothSpec [aQuad] [0, 1, 2, 3] aPos 1 2 aPos
        = planarize [aQuad] (initNormals [aQuad]) (1/2) aPos [0, 1, 2, 3] aPos1 := by
      show executeNoSmoothSpec [aQuad] [0, 1, 2, 3] aPos (1/2) 1
          (planarize [aQuad] (initNormals [aQuad]) 1 aPos [0, 1, 2, 3] aPos) = _
      rw [pass1_eq, executeNoSmoothSpec_one]
    rw [hrun, planarize_apply _ _ _ _ _ _ (by decide : (3:Nat) ∈ [0, 1, 2, 3]),
      collect_aQuad aPos1 (by decide), List.length_singleton,
      anchorWeight_eq_max (by omega) (1/2), aCenter1, hmax]
    exact solve_single (by norm_num) (aPos 3) ![0, 0, 1] ![0, 1, 8/5] 1
      (by
        funext i
        fin_cases i <;>
          norm_num [aPos, Matrix.dotProduct, Fin.sum_univ_three,
            Matrix.cons_val_zero, Matrix.cons_val_one, Matrix.head_cons,
            Matrix.cons_val_two, Matrix.tail_cons, Pi.add_apply, Pi.smul_apply])
  · intro h
    have h2 := congrFun h 2
    norm_num [Matrix.cons_val_two, Matrix.tail_cons, Matrix.head_cons] at h2

/-- Identity-keyed writes leave unmentioned identities unchanged. -/
theorem initNormals_fold_not_mem (fcs : List Face) (m : Nat → Vec3) (i : Nat)
    (h : ∀ g ∈ fcs, g.id ≠ i) :
    (fcs.foldl (fun m f => Function.update m f.id f.normal) m) i = m i := by
  induction fcs generalizing m with
  | nil => rfl
  | cons g gs ih =>
      rw [List.foldl_cons, ih _ (fun g2 hg2 => h g2 (by simp [hg2]))]
      exact Function.update_noteq (Ne.symm (h g (by simp))) _ _

/-- Identity-keyed writes over a duplicate-free identity list read back each
face its own normal, whatever the starting dictionary. -/
theorem initNormals_fold_eq (fcs : List Face) {f : Face}
    (hids : (fcs.map Face.id).Nodup) (hf : f ∈ fcs) :
    ∀ m : Nat → Vec3,
      (fcs.foldl (fun m g => Function.update m g.id g.normal) m) f.id = f.normal := by
  induction fcs with
  | nil => cases hf
  | cons g gs ih =>
      intro m
      rw [List.foldl_cons]
      rcases List.mem_cons.mp hf with rfl | hmem
      · have h1 : f.id ∉ gs.map Face.id := (List.nodup_cons.mp (by simpa using hids)).1
        have hrest : ∀ g2 ∈ gs, g2.id ≠ f.id := by
          intro g2 hg2 he
          exact h1 (he ▸ List.mem_map_of_mem Face.id hg2)
        rw [initNormals_fold_not_mem gs _ f.id hrest, Function.update_same]
      · exact ih (List.nodup_cons.mp (by simpa using hids)).2 hmem _

/-- With duplicate-free face identities the normal dictionary of line 30/83
returns each listed face its own normal. -/
theorem initNormals_eq (faces : List Face) {f : Face}
    (hids : (faces.map Face.id).Nodup) (hf : f ∈ faces) :
    initNormals faces f.id = f.normal :=
  initNormals_fold_eq faces hids hf _

/-- A smoothing round leaves the entry of an identity untouched when no
visited face carries it. -/
theorem smoothRound_not_mem (faces : List Face) (order : List Face) (i : Nat)
    (h : ∀ g ∈ order, g.id ≠ i) :
    ∀ m : Nat → Vec3, smoothRound faces m order i = m i := by
  unfold smoothRound
  induction order with
  | nil => intro m; rfl
  | cons g gs ih =>
      intro m
      rw [List.foldl_cons, ih (fun x hx => h x (by simp [hx]))]
      unfold smoothUpdate
      exact Function.update_noteq (Ne.symm (h g (by simp))) _ _

/-- The whole smoother run leaves the entry of an identity untouched when no
round visits a face carrying it. -/
theorem smoothRounds_not_mem (faces : List Face) (orders : List (List Face)) (i : Nat)
    (h : ∀ o ∈ orders, ∀ g ∈ o, g.id ≠ i) :
    ∀ m : Nat → Vec3, (orders.foldl (smoothRound faces) m) i = m i := by
  induction orders with
  | nil => intro m; rfl
  | cons o os ih =>
      intro m
      rw [List.foldl_cons, ih (fun o2 h2 => h o2 (by simp [h2]))]
      exact smoothRound_not_mem faces o i (h o (by simp)) m

/-- C9: only candidate faces (at least 3 entries in their neighbor list,
duplicates counted) are ever visited by the smoothing rounds; a face with
fewer than 3 neighbor entries is visited by no shuffled round, and its
normal after all 5 rounds is the geometric normal it started with. -/
theorem C9_few_neighbors_unchanged (faces : List Face) (orders : List (List Face))
    {f : Face} (hids : (faces.map Face.id).Nodup) (hf : f ∈ faces)
    (hfive : orders.length = 5)
    (hperm : ∀ o ∈ orders, o.Perm (randfaces faces))
    (hn : (neighborsOf faces f).length < 3) :
    get_smoothened_normals faces orders f.id = f.normal := by
  have hnotc : f ∉ randfaces faces := by
    unfold randfaces
    intro hmem
    have h2 := (List.mem_filter.mp hmem).2
    simp only [decide_eq_true_eq] at h2
    omega
  have hvisit : ∀ o ∈ orders, ∀ g ∈ o, g.id ≠ f.id := by
    intro o ho g hg he
    have hgr : g ∈ randfaces faces := (hperm o ho).mem_iff.mp hg
    have hgf : g ∈ faces := by
      unfold randfaces at hgr
      exact List.mem_of_mem_filter hgr
    have hgeq : g = f := List.inj_on_of_nodup_map hids hgf hf he
    exact hnotc (hgeq ▸ hgr)
  unfold get_smoothened_normals
  rw [smoothRounds_not_mem faces orders f.id hvisit]
  exact initNormals_eq faces hids hf

/-- Witness for C9: a lone quad face has an empty neighbor list, so five
empty rounds (the only permutations of the empty candidate list) return its
own normal. -/
theorem C9_few_neighbors_unchanged_witness :
    get_smoothened_normals [sqFace] [[], [], [], [], []] sqFace.id = ![0, 0, 1] := by
  have hr : randfaces [sqFace] = [] := rfl
  have hperm : ∀ o ∈ [([] : List Face), [], [], [], []], o.Perm (randfaces [sqFace]) := by
    intro o ho
    have ho5 : o = [] := by simpa using ho
    subst ho5
    rw [hr]
  exact @C9_few_neighbors_unchanged [sqFace] [[], [], [], [], []] sqFace (by decide)
    (by simp) rfl hperm (by decide)

/-- Unfolding one visited face of an instrumented round. -/
theorem smoothRoundAux_cons (faces : List Face) (g : Face) (gs : List Face)
    (st : (Nat → Vec3) × Prop) :
    smoothRoundAux faces st (g :: gs)
      = smoothRoundAux faces
          (smoothUpdate faces st.1 g, st.2 ∧ updateSum faces st.1 g ≠ 0) gs := rfl

/-- The second component of an instrumented round only accumulates. -/
theorem smoothRoundAux_mono (faces : List Face) (order : List Face) :
    ∀ st : (Nat → Vec3) × Prop, (smoothRoundAux faces st order).2 → st.2 := by
  induction order with
  | nil => intro st h; exact h
  | cons g gs ih =>
      intro st h
      rw [smoothRoundAux_cons] at h
      exact (ih _ h).1

/-- The second component of the instrumented rounds fold only accumulates. -/
theorem smoothRoundsAux_mono (faces : List Face) (orders : List (List Face)) :
    ∀ st : (Nat → Vec3) × Prop, (orders.foldl (smoothRoundAux faces) st).2 → st.2 := by
  induction orders with
  | nil => intro st h; exact h
  | cons o os ih =>
      intro st h
      rw [List.foldl_cons] at h
      exact smoothRoundAux_mono faces o st (ih _ h)

/-- The instrumented round computes the same normal field as the round. -/
theorem smoothRoundAux_fst (faces : List Face) (order : List Face) :
    ∀ st : (Nat → Vec3) × Prop,
      (smoothRoundAux faces st order).1 = smoothRound faces st.1 order := by
  induction order with
  | nil => intro st; rfl
  | cons g gs ih =>
      intro st
      rw [smoothRoundAux_cons, ih]
      rfl

/-- The instrumented run computes the same normal field as the smoother. -/
theorem smoothRunAux_fst (faces : List Face) (orders : List (List Face)) :
    (smoothRunAux faces orders).1 = get_smoothened_normals faces orders := by
  unfold smoothRunAux get_smoothened_normals
  have key : ∀ (os : List (List Face)) (st : (Nat → Vec3) × Prop),
      (os.foldl (smoothRoundAux faces) st).1 = os.foldl (smoothRound faces) st.1 := by
    intro os
    induction os with
    | nil => intro st; rfl
    | cons o os2 ih =>
        intro st
        rw [List.foldl_cons, List.foldl_cons, ih, smoothRoundAux_fst]
  exact key orders (initNormals faces, True)

/-- Normalizing a nonzero vector yields squared length 1. -/
theorem normSq_normalized (v : Vec3) (hv : v ≠ 0) : normSq (normalized v) = 1 := by
  unfold normalized
  rw [if_neg hv]
  unfold normSq
  have hpos : 0 < dotProduct v v :=
    lt_of_le_of_ne (dotProduct_self_nonneg v)
      (Ne.symm fun h => hv (Matrix.dotProduct_self_eq_zero.mp h))
  rw [Matrix.smul_dotProduct, Matrix.dotProduct_smul, smul_eq_mul, smul_eq_mul, ← mul_assoc,
    ← mul_inv, Real.mul_self_sqrt hpos.le]
  exact inv_mul_cancel₀ (ne_of_gt hpos)

/-- The unit-length invariant survives one instrumented round when every
visited face is listed and no visited update had a zero 3-nearest sum. -/
theorem smoothRoundAux_unit (faces : List Face) (order : List Face)
    (ho : ∀ g ∈ order, g ∈ faces) :
    ∀ st : (Nat → Vec3) × Prop,
      (∀ f ∈ faces, normSq (st.1 f.id) = 1)
      → (smoothRoundAux faces st order).2
      → ∀ f ∈ faces, normSq ((smoothRoundAux faces st order).1 f.id) = 1 := by
  induction order with
  | nil => intro st hst _ f hf; exact hst f hf
  | cons g gs ih =>
      intro st hst hdf f hf
      rw [smoothRoundAux_cons] at hdf ⊢
      have hsum : updateSum faces st.1 g ≠ 0 := (smoothRoundAux_mono faces gs _ hdf).2
      refine ih (fun x hx => ho x (by simp [hx])) _ ?_ hdf f hf
      intro f2 hf2
      show normSq (smoothUpdate faces st.1 g f2.id) = 1
      unfold smoothUpdate
      rcases eq_or_ne f2.id g.id with he | he
      · rw [he, Function.update_same]
        exact normSq_normalized _ hsum
      · rw [Function.update_noteq he _ _]
        exact hst f2 hf2

/-- The unit-length invariant survives the whole instrumented run. -/
theorem smoothRoundsAux_unit (faces : List Face) (orders : List (List Face))
    (ho : ∀ o ∈ orders, ∀ g ∈ o, g ∈ faces) :
    ∀ st : (Nat → Vec3) × Prop,
      (∀ f ∈ faces, normSq (st.1 f.id) = 1)
      → (orders.foldl (smoothRoundAux faces) st).2
      → ∀ f ∈ faces, normSq ((orders.foldl (smoothRoundAux faces) st).1 f.id) = 1 := by
  induction orders with
  | nil => intro st hst _ f hf; exact hst f hf
  | cons o os ih =>
      intro st hst hdf f hf
      rw [List.foldl_cons] at hdf ⊢
      refine ih (fun o2 h2 => ho o2 (by simp [h2])) _ ?_ hdf f hf
      exact smoothRoundAux_unit faces o (ho o (by simp)) st hst
        (smoothRoundsAux_mono faces os _ hdf)

/-- C8: when the host-supplied input normals are unit, every face visited by
the rounds is a listed face, and no update of the run had a degenerate
zero-length 3-nearest sum, every normal in the field returned by the
smoother has squared length exactly 1 (in particular none is the zero
vector); a zero vector can arise only from a degenerate cancellation. -/
theorem C8_unit_normals (faces : List Face) (orders : List (List Face))
    (hids : (faces.map Face.id).Nodup)
    (hunit : ∀ f ∈ faces, normSq f.normal = 1)
    (hvis : ∀ o ∈ orders, ∀ g ∈ o, g ∈ faces)
    (hdf : (smoothRunAux faces orders).2) :
    ∀ f ∈ faces, normSq (get_smoothened_normals faces orders f.id) = 1 := by
  intro f hf
  rw [← smoothRunAux_fst]
  unfold smoothRunAux at hdf ⊢
  refine smoothRoundsAux_unit faces orders hvis _ ?_ hdf f hf
  intro f2 hf2
  show normSq (initNormals faces f2.id) = 1
  rw [initNormals_eq faces hids hf2]
  exact hunit f2 hf2

/-- Witness for C8: the lone quad with five empty rounds keeps its unit
normal; the run performs no update, hence no degenerate sum. -/
theorem C8_unit_normals_witness :
    normSq (get_smoothened_normals [sqFace] [[], [], [], [], []] sqFace.id) = 1 := by
  refine C8_unit_normals [sqFace] [[], [], [], [], []] (by decide) ?_ (by simp)
    (by exact trivial) sqFace (by simp)
  intro f hf
  rw [List.mem_singleton] at hf
  subst hf
  norm_num [sqFace, normSq, Matrix.dotProduct, Fin.sum_univ_three,
    Matrix.cons_val_zero, Matrix.cons_val_one, Matrix.head_cons,
    Matrix.cons_val_two, Matrix.tail_cons]

/-- When a face has exactly 3 neighbor normals, sorting and keeping the 3
nearest keeps all of them: the summed value is the plain sum. -/
theorem take3_mergeSort_sum (le : Vec3 → Vec3 → Bool) (l : List Vec3)
    (hl : l.length = 3) : ((l.mergeSort le).take 3).sum = l.sum := by
  rw [List.take_of_length_le (by rw [List.length_mergeSort, hl])]
  exact (List.mergeSort_perm l le).sum_eq

/-- Cancelling configuration: a triangle whose three neighbors carry unit
normals at mutual angles of 120 degrees in the plane z = 0, so the three
nearest neighbor normals sum to zero. -/
noncomputable def c3f0 : Face := ⟨0, [0, 1, 2], ![0, 0, 1]⟩

/-- Neighbor of `c3f0` through vertex 0. -/
noncomputable def c3f1 : Face := ⟨1, [0, 10, 11], ![1, 0, 0]⟩

/-- Neighbor of `c3f0` through vertex 1. -/
noncomputable def c3f2 : Face := ⟨2, [1, 12, 13], ![-(1/2), Real.sqrt 3 / 2, 0]⟩

/-- Neighbor of `c3f0` through vertex 2. -/
noncomputable def c3f3 : Face := ⟨3, [2, 14, 15], ![-(1/2), -(Real.sqrt 3 / 2), 0]⟩

/-- The cancelling mesh. -/
noncomputable def c3faces : List Face := [c3f0, c3f1, c3f2, c3f3]

/-- Its initial normal field. -/
noncomputable def c3m : Nat → Vec3 := initNormals c3faces

/-- The neighbor list of the visited face: exactly its three neighbors. -/
theorem c3neighbors : neighborsOf c3faces c3f0 = [c3f1, c3f2, c3f3] := rfl

/-- The 3-nearest sum of the visited face cancels exactly. -/
theorem c3sum : updateSum c3faces c3m c3f0 = 0 := by
  unfold updateSum
  rw [c3neighbors]
  rw [show List.map (fun g => c3m g.id) [c3f1, c3f2, c3f3] = [c3m 1, c3m 2, c3m 3] from rfl]
  rw [take3_mergeSort_sum _ [c3m 1, c3m 2, c3m 3] (by simp)]
  rw [show c3m 1 = ![1, 0, 0] from rfl,
    show c3m 2 = ![-(1/2), Real.sqrt 3 / 2, 0] from rfl,
    show c3m 3 = ![-(1/2), -(Real.sqrt 3 / 2), 0] from rfl]
  funext i
  fin_cases i <;>
    norm_num [List.sum_cons, Pi.add_apply, Matrix.cons_val_zero, Matrix.cons_val_one,
      Matrix.head_cons, Matrix.cons_val_two, Matrix.tail_cons]

/-- C3 (amended): when the 3-nearest sum of a smoothing update collapses to
the zero vector, line 38 stores the zero vector for that face (mathutils
normalizes zero to zero); the prior normal is not retained, and the run
continues without aborting. -/
theorem C3_zero_sum_stores_zero (faces : List Face) (m : Nat → Vec3) (f : Face)
    (h : updateSum faces m f = 0) :
    smoothUpdate faces m f f.id = 0 := by
  unfold smoothUpdate
  rw [Function.update_same, h]
  unfold normalized
  rw [if_pos rfl]

/-- Witness for the amended C3 at the cancelling configuration. -/
theorem C3_zero_sum_stores_zero_witness :
    updateSum c3faces c3m c3f0 = 0 ∧ smoothUpdate c3faces c3m c3f0 c3f0.id = 0 :=
  ⟨c3sum, C3_zero_sum_stores_zero c3faces c3m c3f0 c3sum⟩

/-- C3 (counterexample): at the cancelling configuration the 3-nearest sum
of the visited face is zero, yet the normal stored by the update is not the
prior normal (0, 0, 1): the smoother stores the degenerate zero vector
instead of retaining the prior normal. -/
theorem C3_counterexample :
    updateSum c3faces c3m c3f0 = 0
    ∧ smoothUpdate c3faces c3m c3f0 c3f0.id ≠ c3m c3f0.id := by
  refine ⟨c3sum, ?_⟩
  have hz : smoothUpdate c3faces c3m c3f0 c3f0.id = 0 := by
    unfold smoothUpdate
    rw [Function.update_same, c3sum]
    unfold normalized
    rw [if_pos rfl]
  rw [hz]
  intro h
  have h2 := congrFun h 2
  rw [show c3m c3f0.id = ![0, 0, 1] from rfl] at h2
  norm_num [Matrix.cons_val_two, Matrix.tail_cons, Matrix.head_cons] at h2
